import Mathlib

/-!
Verification of the filename-synthesis and uniqueness engine of the
claude-artifact-downloader repository.

The functions `sanitizeComponent`, `sanitizePathComponents`,
`constructFilePath`, `makeUnique`, `makeUniqueWithArrays` and
`getUniqueFileName` are shallow embeddings of the JavaScript functions of the
same names from the repository's directory-structure design document.
JavaScript strings are modelled as Lean strings, JavaScript `Set<string>`
values as `List String` used only through membership and insertion, and the
unbounded do/while collision loops as a bounded search (`searchFree`) whose
fuel provably suffices.  The extension table and the layout composer, whose
defining code (background.js) is not part of the sources, are modelled from
the specification and marked as such in their doc comments.
-/

namespace ArtifactDownloader

/-- Separator characters recognised by the title-splitting step in
`sanitizePathComponents` (the JS regex class of `/` and `\`). -/
def isSep (c : Char) : Bool := c = '/' || c = '\\'

/-- Characters kept unchanged by the sanitizing regex of `sanitizeComponent`:
the complement of the replaced class, i.e. word characters (letters, digits,
underscore) plus hyphen and dot. -/
def isAllowedChar (c : Char) : Bool := c.isAlphanum || c = '_' || c = '-' || c = '.'

/-- One pass of the replacement regex of `sanitizeComponent`: each maximal run
of disallowed characters collapses to a single underscore.  The boolean flag
records whether the previous character belonged to a disallowed run. -/
def sanitizeAux : Bool → List Char → List Char
  | _, [] => []
  | prevBad, c :: cs =>
    if isAllowedChar c then c :: sanitizeAux false cs
    else if prevBad then sanitizeAux true cs
    else '_' :: sanitizeAux true cs

/-- JS-style string split, auxiliary form: returns the first field and the
list of remaining fields of the input split at every character satisfying the
predicate. -/
def splitFields (p : Char → Bool) : List Char → List Char × List (List Char)
  | [] => ([], [])
  | c :: cs =>
    let r := splitFields p cs
    if p c then ([], r.1 :: r.2) else (c :: r.1, r.2)

/-- JS-style string split: every character satisfying the predicate is a
delimiter; the result always has at least one (possibly empty) field, exactly
like `"".split(..) == [""]` in JavaScript. -/
def jsSplit (p : Char → Bool) (s : List Char) : List (List Char) :=
  (splitFields p s).1 :: (splitFields p s).2

/-- JS-style `join`: concatenate the fields with a single separator character
between consecutive fields. -/
def joinSep (sep : Char) : List (List Char) → List Char
  | [] => []
  | [x] => x
  | x :: y :: xs => x ++ sep :: joinSep sep (y :: xs)

/-- Splits a list around the `last` occurrence of a character, returning the
parts strictly before and strictly after it; `none` when the character does
not occur (models `String.prototype.lastIndexOf` followed by `substring`). -/
def splitLastChar (c : Char) : List Char → Option (List Char × List Char)
  | [] => none
  | x :: xs =>
    match splitLastChar c xs with
    | some (b, a) => some (x :: b, a)
    | none => if x = c then some ([], xs) else none

/-- Bounded search for the first generated candidate not in `used`, starting
at index `start`; models the do/while collision loops of the source, whose
termination is guaranteed because the candidates are pairwise distinct and
the used-name set is finite. -/
def searchFree (gen : Nat → String) (used : List String) (start : Nat) : Nat → String
  | 0 => gen start
  | fuel + 1 => if gen start ∈ used then searchFree gen used (start + 1) fuel else gen start

/-- Source `sanitizeComponent`: `component.replace(/[^\w\-._]+/g, "_")`. -/
def sanitizeComponent (component : String) : String :=
  ⟨sanitizeAux false component.data⟩

/-- The fields of the title split on both separator characters
(`title.split(/[\/\\]/)` in the source). -/
def titleParts (title : String) : List (List Char) := jsSplit isSep title.data

/-- Source `sanitizePathComponents`: split the title on `/` and `\`, pop the
last field as the filename — substituting `"untitled"` when it is empty
(`parts.pop() || "untitled"`) — sanitize every part, and rejoin the directory
parts with `/`.  Returns `(sanitizedPath, sanitizedFilename)`. -/
def sanitizePathComponents (title : String) : String × String :=
  (⟨joinSep '/' (((titleParts title).dropLast).map (sanitizeAux false))⟩,
   ⟨sanitizeAux false
     (if (titleParts title).getLastD [] = [] then "untitled".data
      else (titleParts title).getLastD [])⟩)

/-- Source `constructFilePath`: directory mode joins the sanitized path and
filename with `/` (omitting the path when empty); flat mode prefixes the
filename with `messageIndex + 1` and an underscore. -/
def constructFilePath (path filename extension : String) (messageIndex : Nat)
    (useDirectoryStructure : Bool) : String :=
  if useDirectoryStructure then
    if path = "" then filename ++ extension else path ++ "/" ++ filename ++ extension
  else
    Nat.repr (messageIndex + 1) ++ "_" ++ filename ++ extension

/-- The split of a path at its last `/` performed by `makeUnique`: the base
path `substring(0, lastSlashIndex + 1)` (including the slash, empty when no
slash occurs) and the remaining base filename. -/
def splitPathAt (d : List Char) : List Char × List Char :=
  match splitLastChar '/' d with
  | some (b, a) => (b ++ ['/'], a)
  | none => ([], d)

/-- The split of a filename at its last `.` performed by `makeUnique`: the
name and the extension `substring(lastDotIndex)` (including the dot, empty
when no dot occurs). -/
def splitExtAt (d : List Char) : List Char × List Char :=
  match splitLastChar '.' d with
  | some (b, a) => (b, '.' :: a)
  | none => (d, [])

/-- Source `makeUnique`: split the colliding name at the last `/` into base
path and filename, split the filename at the last `.` into name and
extension, and append `_1`, `_2`, … between name and extension until the
result is unused. -/
def makeUnique (fileName : String) (usedNames : List String) : String :=
  searchFree
    (fun k =>
      ⟨(splitPathAt fileName.data).1 ++ (splitExtAt (splitPathAt fileName.data).2).1
        ++ '_' :: (Nat.repr k).data ++ (splitExtAt (splitPathAt fileName.data).2).2⟩)
    usedNames 1 (usedNames.length + 1)

/-- Source `makeUniqueWithArrays`, embedded with the source's exact
composition semantics: its `pipe` applies functions right-to-left and its
`prependPath` is built from the `append` combinator, so each candidate is
`baseFilename ++ "/" ++ basePath ++ "." ++ ext ++ "_" ++ stars`, the star run
growing by one per collision. -/
def makeUniqueWithArrays (fileName : String) (usedNames : List String) : String :=
  let pathParts := jsSplit (fun c => c = '/') fileName.data
  let filenamePart := pathParts.getLastD []
  let basePath := joinSep '/' pathParts.dropLast
  let filenameParts := jsSplit (fun c => c = '.') filenamePart
  let ext := if filenameParts.length > 1 then filenameParts.getLastD [] else []
  let baseFilename :=
    joinSep '.' (if filenameParts.length > 1 then filenameParts.dropLast else filenameParts)
  searchFree
    (fun k => ⟨baseFilename ++ '/' :: basePath ++ '.' :: ext ++ '_' :: List.replicate k '*'⟩)
    usedNames 1 (usedNames.length + 1)

/-- Modelled from the spec: the fixed language-to-extension table of
`ExtensionResolver` (spec section 4.3); the defining code, background.js
`getFileExtension`, is absent from the sources (only its tests are present). -/
def extensionTable : List (String × String) :=
  [("javascript", ".js"), ("typescript", ".ts"), ("html", ".html"), ("css", ".css"),
   ("python", ".py"), ("java", ".java"), ("c", ".c"), ("cpp", ".cpp"),
   ("ruby", ".rb"), ("php", ".php"), ("swift", ".swift"), ("go", ".go"),
   ("rust", ".rs"), ("shell", ".sh"), ("sql", ".sql"), ("kotlin", ".kt"),
   ("scala", ".scala"), ("r", ".r"), ("matlab", ".m")]

/-- First-match association lookup, modelling the JS object-key lookup of the
extension table. -/
def lookupTable : List (String × String) → String → Option String
  | [], _ => none
  | (k, v) :: rest, s => if s = k then some v else lookupTable rest s

/-- Character-wise ASCII lowercasing, modelling `String.prototype.toLowerCase`
on the inputs the extension table distinguishes. -/
def jsToLower (s : String) : String := ⟨s.data.map Char.toLower⟩

/-- Modelled from the spec: `ExtensionResolver.resolve` (spec section 4.3);
the defining code, background.js `getFileExtension`, is absent from the
sources (only its tests are present).  Falsy input (null, undefined, empty
string) resolves to `.txt`; otherwise a case-insensitive table lookup with
default `.txt`. -/
def getFileExtension (language : Option String) : String :=
  match language with
  | none => ".txt"
  | some l => if l = "" then ".txt" else (lookupTable extensionTable (jsToLower l)).getD ".txt"

/-- The collision step of `getUniqueFileName`: resolve with `makeUnique` only
when the candidate is already used. -/
def resolveCollision (fileName : String) (usedNames : List String) : String :=
  if fileName ∈ usedNames then makeUnique fileName usedNames else fileName

/-- The path computed by one `getUniqueFileName` call (its return value). -/
def assignPath (title : String) (language : Option String) (messageIndex : Nat)
    (usedNames : List String) (useDirectoryStructure : Bool) : String :=
  resolveCollision
    (constructFilePath (sanitizePathComponents title).1 (sanitizePathComponents title).2
      (getFileExtension language) messageIndex useDirectoryStructure)
    usedNames

/-- Source `getUniqueFileName` (the design document's engine): sanitize the
title's path components, resolve the extension, construct the candidate path,
resolve collisions with `makeUnique`, insert the result into the used-name
set (`usedNames.add(fileName)`), and return it together with the updated
set. -/
def getUniqueFileName (title : String) (language : Option String) (messageIndex : Nat)
    (usedNames : List String) (useDirectoryStructure : Bool) : String × List String :=
  (assignPath title language messageIndex usedNames useDirectoryStructure,
   assignPath title language messageIndex usedNames useDirectoryStructure :: usedNames)

/-- One engine run: `getUniqueFileName` folded over a sequence of artifacts
(title, language, ordinal index), threading the shared used-name set; returns
the assigned paths in order together with the final set. -/
def runEngine (arts : List (String × Option String × Nat)) (useDirectoryStructure : Bool)
    (usedNames : List String) : List String × List String :=
  match arts with
  | [] => ([], usedNames)
  | (t, l, i) :: rest =>
    let r := getUniqueFileName t l i usedNames useDirectoryStructure
    let rr := runEngine rest useDirectoryStructure r.2
    (r.1 :: rr.1, rr.2)

/-- The two layout policies of the spec's data model. -/
inductive LayoutPolicy
  | Flat
  | DirectoryStructure

/-- Modelled from the spec: `PathComposer.compose` (spec section 4.2); the
defining code, background.js `inferDirectoryStructure`, is absent from the
sources (only its tests are present).  The raw title is split on both
separators and every segment sanitized; in Flat policy directory segments are
discarded and the result is `{n+1}_{sanitizedLeaf}{suffix}{extension}`, the
numeric prefix and its underscore being omitted entirely when the ordinal
index is undefined; in DirectoryStructure policy the sanitized segments are
rejoined with `/`. -/
def compose (rawTitle extension : String) (ordinalIndex : Option Nat)
    (sfx : Option String) (policy : LayoutPolicy) : String :=
  let leaf : String := ⟨sanitizeAux false ((titleParts rawTitle).getLastD [])⟩
  let dirs := ((titleParts rawTitle).dropLast).map (sanitizeAux false)
  let pre : String :=
    match ordinalIndex with
    | some n => Nat.repr (n + 1) ++ "_"
    | none => ""
  let leafFull := pre ++ leaf ++ sfx.getD "" ++ extension
  match policy with
  | .Flat => leafFull
  | .DirectoryStructure =>
    if dirs = [] then leafFull else (⟨joinSep '/' dirs⟩ : String) ++ "/" ++ leafFull

/-- The `/`-separated segments of a path string (how an archive consumer
reads directory structure from an entry name). -/
def pathSegments (s : String) : List (List Char) := jsSplit (fun c => c = '/') s.data

/-! ### Numeral lemmas: characters and injectivity of `Nat.repr` -/

theorem toDigitsCore_shift (f : Nat) : ∀ (n : Nat) (ds : List Char),
    Nat.toDigitsCore 10 f n ds = Nat.toDigitsCore 10 f n [] ++ ds := by
  induction f with
  | zero => intro n ds; simp [Nat.toDigitsCore]
  | succ f ih =>
    intro n ds
    simp only [Nat.toDigitsCore]
    by_cases h : n / 10 = 0
    · simp [h]
    · simp only [h, if_false]
      rw [ih (n / 10) (Nat.digitChar (n % 10) :: ds), ih (n / 10) [Nat.digitChar (n % 10)]]
      simp

theorem toDigitsCore_fuel (f1 : Nat) : ∀ (f2 n : Nat) (ds : List Char), n < f1 → n < f2 →
    Nat.toDigitsCore 10 f1 n ds = Nat.toDigitsCore 10 f2 n ds := by
  induction f1 with
  | zero => intro f2 n ds h1 _; omega
  | succ f1 ih =>
    intro f2 n ds h1 h2
    cases f2 with
    | zero => omega
    | succ f2 =>
      simp only [Nat.toDigitsCore]
      by_cases h : n / 10 = 0
      · simp [h]
      · simp only [h, if_false]
        have hn : 0 < n := by
          rcases Nat.eq_zero_or_pos n with h0 | h0
          · subst h0; simp at h
          · exact h0
        have hlt := Nat.div_lt_self hn (by norm_num : 1 < 10)
        apply ih
        · omega
        · omega

theorem toDigits_step (n : Nat) (h : 10 ≤ n) :
    Nat.toDigits 10 n = Nat.toDigits 10 (n / 10) ++ [Nat.digitChar (n % 10)] := by
  have hd : n / 10 ≠ 0 := by
    intro h0
    have := Nat.div_eq_of_lt (show n < 10 by omega)
    omega
  show Nat.toDigitsCore 10 (n + 1) n [] = _
  simp only [Nat.toDigitsCore, hd, if_false]
  rw [toDigitsCore_shift]
  congr 1
  apply toDigitsCore_fuel
  · have := Nat.div_lt_self (show 0 < n by omega) (by norm_num : 1 < 10)
    omega
  · omega

theorem toDigits_small (n : Nat) (h : n < 10) : Nat.toDigits 10 n = [Nat.digitChar n] := by
  show Nat.toDigitsCore 10 (n + 1) n [] = _
  have hd : n / 10 = 0 := Nat.div_eq_of_lt h
  simp only [Nat.toDigitsCore, hd, if_true]
  rw [Nat.mod_eq_of_lt h]

theorem toDigits_ne_nil (n : Nat) : Nat.toDigits 10 n ≠ [] := by
  by_cases h : n < 10
  · rw [toDigits_small n h]; simp
  · rw [toDigits_step n (by omega)]; simp

theorem digitChar_inj_lt : ∀ a b : Fin 10, Nat.digitChar a.val = Nat.digitChar b.val → a = b := by
  decide

theorem toDigits_inj : ∀ a b : Nat, Nat.toDigits 10 a = Nat.toDigits 10 b → a = b := by
  intro a
  induction a using Nat.strong_induction_on with
  | _ a ih =>
    intro b hab
    by_cases ha : a < 10 <;> by_cases hb : b < 10
    · rw [toDigits_small a ha, toDigits_small b hb] at hab
      have := digitChar_inj_lt ⟨a, ha⟩ ⟨b, hb⟩ (by injection hab)
      exact congrArg Fin.val this
    · rw [toDigits_small a ha, toDigits_step b (by omega)] at hab
      have hlen : (1 : Nat) = (Nat.toDigits 10 (b / 10)).length + 1 := by
        have := congrArg List.length hab
        simpa using this
      have hne := toDigits_ne_nil (b / 10)
      cases hx : Nat.toDigits 10 (b / 10) with
      | nil => exact absurd hx hne
      | cons c cs => rw [hx] at hlen; simp at hlen
    · rw [toDigits_step a (by omega), toDigits_small b hb] at hab
      have hlen : (Nat.toDigits 10 (a / 10)).length + 1 = (1 : Nat) := by
        have := congrArg List.length hab
        simpa using this
      have hne := toDigits_ne_nil (a / 10)
      cases hx : Nat.toDigits 10 (a / 10) with
      | nil => exact absurd hx hne
      | cons c cs => rw [hx] at hlen; simp at hlen
    · rw [toDigits_step a (by omega), toDigits_step b (by omega)] at hab
      have hlen : (Nat.toDigits 10 (a / 10)).length = (Nat.toDigits 10 (b / 10)).length := by
        have := congrArg List.length hab
        simpa using this
      obtain ⟨h1, h2⟩ := List.append_inj hab hlen
      have hdiv : a / 10 = b / 10 := by
        apply ih (a / 10)
        · exact Nat.div_lt_self (by omega) (by norm_num)
        · exact h1
      have hmod : a % 10 = b % 10 := by
        have hma : a % 10 < 10 := Nat.mod_lt _ (by norm_num)
        have hmb : b % 10 < 10 := Nat.mod_lt _ (by norm_num)
        have := digitChar_inj_lt ⟨a % 10, hma⟩ ⟨b % 10, hmb⟩ (by injection h2)
        exact congrArg Fin.val this
      omega

theorem repr_inj : ∀ a b : Nat, Nat.repr a = Nat.repr b → a = b := by
  intro a b h
  apply toDigits_inj
  have : (Nat.toDigits 10 a).asString = (Nat.toDigits 10 b).asString := h
  exact List.asString_inj.mp this

theorem toDigitsCore_digits (f : Nat) : ∀ (n : Nat) (ds : List Char) (c : Char),
    c ∈ Nat.toDigitsCore 10 f n ds → c.isDigit = true ∨ c ∈ ds := by
  induction f with
  | zero => intro n ds c hc; exact Or.inr hc
  | succ f ih =>
    intro n ds c hc
    have hdig : (Nat.digitChar (n % 10)).isDigit = true := by
      have h10 : n % 10 < 10 := Nat.mod_lt _ (by norm_num)
      interval_cases h : n % 10 <;> decide
    simp only [Nat.toDigitsCore] at hc
    by_cases h : n / 10 = 0
    · simp only [h, if_true] at hc
      rcases List.mem_cons.mp hc with h1 | h1
      · subst h1; exact Or.inl hdig
      · exact Or.inr h1
    · simp only [h, if_false] at hc
      rcases ih (n / 10) (Nat.digitChar (n % 10) :: ds) c hc with h1 | h1
      · exact Or.inl h1
      · rcases List.mem_cons.mp h1 with h2 | h2
        · subst h2; exact Or.inl hdig
        · exact Or.inr h2

theorem repr_chars_digit (n : Nat) (c : Char) (hc : c ∈ (Nat.repr n).data) :
    c.isDigit = true := by
  have hm : c ∈ Nat.toDigitsCore 10 (n + 1) n [] := hc
  rcases toDigitsCore_digits (n + 1) n [] c hm with h | h
  · exact h
  · simp at h

theorem repr_ne_nil (n : Nat) : (Nat.repr n).data ≠ [] := toDigits_ne_nil n

/-! ### `searchFree` lemmas -/

theorem searchFree_all (gen : Nat → String) (used : List String) (P : String → Prop)
    (hP : ∀ k, P (gen k)) : ∀ (fuel start : Nat), P (searchFree gen used start fuel) := by
  intro fuel
  induction fuel with
  | zero => intro start; exact hP start
  | succ fuel ih =>
    intro start
    simp only [searchFree]
    by_cases h : gen start ∈ used
    · simp only [h, if_true]; exact ih (start + 1)
    · simp only [h, if_false]; exact hP start

theorem searchFree_char (gen : Nat → String) (used : List String) :
    ∀ (fuel start : Nat), (∃ k, k < fuel ∧ gen (start + k) ∉ used) →
    ∃ k, gen (start + k) ∉ used ∧ (∀ j, j < k → gen (start + j) ∈ used) ∧
      searchFree gen used start fuel = gen (start + k) := by
  intro fuel
  induction fuel with
  | zero => intro start h; obtain ⟨k, hk, _⟩ := h; omega
  | succ fuel ih =>
    intro start h
    by_cases h0 : gen start ∈ used
    · obtain ⟨k, hk, hfree⟩ := h
      have hkne : k ≠ 0 := by
        intro h1; subst h1; simp at hfree; exact hfree h0
      obtain ⟨m, rfl⟩ := Nat.exists_eq_succ_of_ne_zero hkne
      have hex : ∃ k, k < fuel ∧ gen (start + 1 + k) ∉ used := by
        refine ⟨m, by omega, ?_⟩
        have harr : start + 1 + m = start + (m + 1) := by omega
        rw [harr]; exact hfree
      obtain ⟨k2, hfree2, hmin2, heq2⟩ := ih (start + 1) hex
      refine ⟨k2 + 1, ?_, ?_, ?_⟩
      · have harr : start + (k2 + 1) = start + 1 + k2 := by omega
        rw [harr]; exact hfree2
      · intro j hj
        cases j with
        | zero => simpa using h0
        | succ j2 =>
          have harr : start + (j2 + 1) = start + 1 + j2 := by omega
          rw [harr]; exact hmin2 j2 (by omega)
      · simp only [searchFree, h0, if_true]
        rw [heq2]; congr 1; omega
    · refine ⟨0, by simpa using h0, by omega, ?_⟩
      simp only [searchFree, h0, if_false]
      simp

theorem searchFree_pigeon (gen : Nat → String) (used : List String) (start : Nat)
    (hinj : ∀ i j, gen i = gen j → i = j) :
    ∃ k, k < used.length + 1 ∧ gen (start + k) ∉ used := by
  by_contra hcon
  push_neg at hcon
  have hmap : ∀ k ∈ Finset.range (used.length + 1), gen (start + k) ∈ used.toFinset := by
    intro k hk
    rw [List.mem_toFinset]
    exact hcon k (Finset.mem_range.mp hk)
  have hinj2 : Set.InjOn (fun k => gen (start + k)) (Finset.range (used.length + 1)) := by
    intro i _ j _ hij
    have := hinj (start + i) (start + j) hij
    omega
  have hcard := Finset.card_le_card_of_injOn (fun k => gen (start + k)) hmap hinj2
  simp only [Finset.card_range] at hcard
  have := List.toFinset_card_le used
  omega

theorem searchFree_not_mem (gen : Nat → String) (used : List String) (start : Nat)
    (hinj : ∀ i j, gen i = gen j → i = j) :
    searchFree gen used start (used.length + 1) ∉ used := by
  obtain ⟨k, hfree, _, heq⟩ := searchFree_char gen used (used.length + 1) start
    (searchFree_pigeon gen used start hinj)
  rw [heq]; exact hfree

theorem searchFree_congr (gen : Nat → String) (used1 used2 : List String) (start : Nat)
    (hinj : ∀ i j, gen i = gen j → i = j)
    (hequiv : ∀ s, s ∈ used1 ↔ s ∈ used2) :
    searchFree gen used1 start (used1.length + 1) =
      searchFree gen used2 start (used2.length + 1) := by
  obtain ⟨k1, hfree1, hmin1, heq1⟩ := searchFree_char gen used1 (used1.length + 1) start
    (searchFree_pigeon gen used1 start hinj)
  obtain ⟨k2, hfree2, hmin2, heq2⟩ := searchFree_char gen used2 (used2.length + 1) start
    (searchFree_pigeon gen used2 start hinj)
  have hk : k1 = k2 := by
    by_contra hne
    rcases Nat.lt_or_ge k1 k2 with h | h
    · exact hfree1 ((hequiv _).mpr (hmin2 k1 h))
    · have hlt : k2 < k1 := by omega
      exact hfree2 ((hequiv _).mp (hmin1 k2 hlt))
  rw [heq1, heq2, hk]

/-! ### Sanitizer lemmas -/

theorem sanitizeAux_allowed : ∀ (s : List Char) (b : Bool) (c : Char),
    c ∈ sanitizeAux b s → isAllowedChar c = true := by
  intro s
  induction s with
  | nil => intro b c hc; simp [sanitizeAux] at hc
  | cons x xs ih =>
    intro b c hc
    simp only [sanitizeAux] at hc
    by_cases hx : isAllowedChar x
    · simp only [hx, if_true] at hc
      rcases List.mem_cons.mp hc with h | h
      · subst h; exact hx
      · exact ih false c h
    · simp only [hx, Bool.false_eq_true, if_false] at hc
      cases b with
      | true => exact ih true c (by simpa using hc)
      | false =>
        simp only [Bool.false_eq_true, if_false] at hc
        rcases List.mem_cons.mp hc with h | h
        · subst h; decide
        · exact ih true c h

theorem sanitizeAux_fixed : ∀ (s : List Char) (b : Bool),
    (∀ c ∈ s, isAllowedChar c = true) → sanitizeAux b s = s := by
  intro s
  induction s with
  | nil => intro b _; simp [sanitizeAux]
  | cons x xs ih =>
    intro b hall
    have hx : isAllowedChar x = true := hall x (by simp)
    simp only [sanitizeAux, hx, if_true]
    rw [ih false (fun c hc => hall c (by simp [hc]))]

/-! ### Split and join lemmas -/

theorem splitFields_no_delim : ∀ (s : List Char) (p : Char → Bool),
    (∀ c ∈ s, p c = false) → splitFields p s = (s, []) := by
  intro s
  induction s with
  | nil => intro p _; rfl
  | cons x xs ih =>
    intro p hall
    have hx : p x = false := hall x (by simp)
    have hxs := ih p (fun c hc => hall c (by simp [hc]))
    simp only [splitFields, hx, Bool.false_eq_true, if_false, hxs]

theorem jsSplit_no_delim (s : List Char) (p : Char → Bool)
    (h : ∀ c ∈ s, p c = false) : jsSplit p s = [s] := by
  simp [jsSplit, splitFields_no_delim s p h]

theorem splitFields_append (p : Char → Bool) (x : Char) (hx : p x = true) :
    ∀ (a b : List Char),
    splitFields p (a ++ x :: b) =
      ((splitFields p a).1, (splitFields p a).2 ++ jsSplit p b) := by
  intro a
  induction a with
  | nil => intro b; simp [splitFields, hx, jsSplit]
  | cons c a2 ih =>
    intro b
    by_cases hc : p c <;> simp [splitFields, hc, hx, ih b, jsSplit]

theorem jsSplit_append (p : Char → Bool) (x : Char) (hx : p x = true) (a b : List Char) :
    jsSplit p (a ++ x :: b) = jsSplit p a ++ jsSplit p b := by
  simp [jsSplit, splitFields_append p x hx a b]

theorem joinSep_chars : ∀ (l : List (List Char)) (sep c : Char),
    c ∈ joinSep sep l → c = sep ∨ ∃ x ∈ l, c ∈ x := by
  intro l
  induction l with
  | nil => intro sep c hc; simp [joinSep] at hc
  | cons x xs ih =>
    intro sep c hc
    cases xs with
    | nil =>
      simp only [joinSep] at hc
      exact Or.inr ⟨x, by simp, hc⟩
    | cons y ys =>
      simp only [joinSep, List.mem_append, List.mem_cons] at hc
      rcases hc with h | h | h
      · exact Or.inr ⟨x, by simp, h⟩
      · exact Or.inl h
      · rcases ih sep c h with h2 | ⟨z, hz, hcz⟩
        · exact Or.inl h2
        · exact Or.inr ⟨z, by simp [hz], hcz⟩

/-! ### `splitLastChar` lemmas -/

theorem splitLastChar_none : ∀ (s : List Char) (c : Char),
    splitLastChar c s = none → c ∉ s := by
  intro s
  induction s with
  | nil => intro c _; simp
  | cons x xs ih =>
    intro c h
    simp only [splitLastChar] at h
    cases hx : splitLastChar c xs with
    | some p => rw [hx] at h; simp at h
    | none =>
      rw [hx] at h
      by_cases hxc : x = c
      · simp [hxc] at h
      · intro hmem
        rcases List.mem_cons.mp hmem with h1 | h1
        · exact hxc h1.symm
        · exact ih c hx h1

theorem splitLastChar_spec : ∀ (s : List Char) (c : Char) (b a : List Char),
    splitLastChar c s = some (b, a) → s = b ++ c :: a ∧ c ∉ a := by
  intro s
  induction s with
  | nil => intro c b a h; simp [splitLastChar] at h
  | cons x xs ih =>
    intro c b a h
    simp only [splitLastChar] at h
    cases hx : splitLastChar c xs with
    | some p =>
      rw [hx] at h
      obtain ⟨p1, p2⟩ := p
      simp only [Option.some_inj] at h
      have hb : b = x :: p1 := by
        have := congrArg Prod.fst h.symm
        simpa using this
      have ha : a = p2 := by
        have := congrArg Prod.snd h.symm
        simpa using this
      subst hb; subst ha
      obtain ⟨he, hna⟩ := ih c p1 a hx
      exact ⟨by rw [he]; simp, hna⟩
    | none =>
      rw [hx] at h
      by_cases hxc : x = c
      · simp only [hxc, if_true, Option.some_inj] at h
        have hb : b = [] := by
          have := congrArg Prod.fst h.symm
          simpa using this
        have ha : a = xs := by
          have := congrArg Prod.snd h.symm
          simpa using this
        rw [hb, ha]
        exact ⟨by simp [hxc], splitLastChar_none xs c hx⟩
      · simp [hxc] at h

theorem splitLastChar_of_mem (s : List Char) (c : Char) (hmem : c ∈ s) :
    ∃ b a, splitLastChar c s = some (b, a) := by
  cases hx : splitLastChar c s with
  | some p => exact ⟨p.1, p.2, by simp⟩
  | none => exact absurd hmem (splitLastChar_none s c hx)

/-! ### `makeUnique` lemmas -/

theorem counter_inj (p q : List Char) (j k : Nat)
    (h : (p ++ '_' :: (Nat.repr j).data) ++ q = (p ++ '_' :: (Nat.repr k).data) ++ q) :
    j = k := by
  have h1 := List.append_cancel_right h
  have h2 := List.append_cancel_left h1
  have h3 : (Nat.repr j).data = (Nat.repr k).data := by injection h2
  exact repr_inj j k (String.ext h3)

theorem splitPathAt_chars_fst (d : List Char) (c : Char) (hc : c ∈ (splitPathAt d).1) :
    c ∈ d := by
  unfold splitPathAt at hc
  cases hx : splitLastChar '/' d with
  | some p =>
    obtain ⟨b, a⟩ := p
    rw [hx] at hc
    obtain ⟨he, _⟩ := splitLastChar_spec d '/' b a hx
    simp only at hc
    rcases List.mem_append.mp hc with h | h
    · rw [he]; simp [h]
    · simp at h
      rw [he, h]; simp
  | none => rw [hx] at hc; simp at hc

theorem splitPathAt_chars_snd (d : List Char) (c : Char) (hc : c ∈ (splitPathAt d).2) :
    c ∈ d := by
  unfold splitPathAt at hc
  cases hx : splitLastChar '/' d with
  | some p =>
    obtain ⟨b, a⟩ := p
    rw [hx] at hc
    obtain ⟨he, _⟩ := splitLastChar_spec d '/' b a hx
    simp only at hc
    rw [he]; simp [hc]
  | none => rw [hx] at hc; simpa using hc

theorem splitExtAt_chars_fst (d : List Char) (c : Char) (hc : c ∈ (splitExtAt d).1) :
    c ∈ d := by
  unfold splitExtAt at hc
  cases hx : splitLastChar '.' d with
  | some p =>
    obtain ⟨b, a⟩ := p
    rw [hx] at hc
    obtain ⟨he, _⟩ := splitLastChar_spec d '.' b a hx
    simp only at hc
    rw [he]; simp [hc]
  | none => rw [hx] at hc; simpa using hc

theorem splitExtAt_chars_snd (d : List Char) (c : Char) (hc : c ∈ (splitExtAt d).2) :
    c ∈ d := by
  unfold splitExtAt at hc
  cases hx : splitLastChar '.' d with
  | some p =>
    obtain ⟨b, a⟩ := p
    rw [hx] at hc
    obtain ⟨he, _⟩ := splitLastChar_spec d '.' b a hx
    simp only at hc
    rcases List.mem_cons.mp hc with h | h
    · rw [he, h]; simp
    · rw [he]; simp [h]
  | none => rw [hx] at hc; simp at hc

theorem makeUnique_gen_inj (f : String) : ∀ i j : Nat,
    (⟨(splitPathAt f.data).1 ++ (splitExtAt (splitPathAt f.data).2).1
      ++ '_' :: (Nat.repr i).data ++ (splitExtAt (splitPathAt f.data).2).2⟩ : String) =
    ⟨(splitPathAt f.data).1 ++ (splitExtAt (splitPathAt f.data).2).1
      ++ '_' :: (Nat.repr j).data ++ (splitExtAt (splitPathAt f.data).2).2⟩ → i = j := by
  intro i j hij
  have hd := congrArg String.data hij
  simp only [List.append_assoc] at hd
  apply counter_inj ((splitPathAt f.data).1 ++ (splitExtAt (splitPathAt f.data).2).1)
    (splitExtAt (splitPathAt f.data).2).2 i j
  simp only [List.append_assoc]
  exact hd

theorem makeUnique_not_mem (f : String) (u : List String) : makeUnique f u ∉ u := by
  unfold makeUnique
  exact searchFree_not_mem _ u 1 (makeUnique_gen_inj f)

theorem makeUnique_congr (f : String) (u1 u2 : List String)
    (hequiv : ∀ s, s ∈ u1 ↔ s ∈ u2) : makeUnique f u1 = makeUnique f u2 := by
  unfold makeUnique
  exact searchFree_congr _ u1 u2 1 (makeUnique_gen_inj f) hequiv

theorem makeUnique_chars (f : String) (u : List String) (c : Char)
    (hc : c ∈ (makeUnique f u).data) : c ∈ f.data ∨ c.isDigit = true ∨ c = '_' := by
  unfold makeUnique at hc
  revert hc
  refine searchFree_all _ u
    (fun s => c ∈ s.data → c ∈ f.data ∨ c.isDigit = true ∨ c = '_') ?_ _ 1
  intro k hc
  simp only [List.append_assoc, List.mem_append, List.cons_append, List.mem_cons] at hc
  rcases hc with h | h | h | h | h
  · exact Or.inl (splitPathAt_chars_fst f.data c h)
  · exact Or.inl (splitExtAt_chars_fst _ c h |> splitPathAt_chars_snd f.data c)
  · exact Or.inr (Or.inr h)
  · exact Or.inr (Or.inl (repr_chars_digit k c h))
  · exact Or.inl (splitExtAt_chars_snd _ c h |> splitPathAt_chars_snd f.data c)

/-! ### Extension-resolver lemmas -/

theorem lookupTable_mem_values : ∀ (t : List (String × String)) (s v : String),
    lookupTable t s = some v → v ∈ t.map Prod.snd := by
  intro t
  induction t with
  | nil => intro s v h; simp [lookupTable] at h
  | cons kv rest ih =>
    intro s v h
    obtain ⟨k, w⟩ := kv
    simp only [lookupTable] at h
    by_cases hk : s = k
    · simp only [hk, if_true, Option.some_inj] at h
      simp [h]
    · simp only [hk, if_false] at h
      simp [ih s v h]

theorem lookupTable_eq_none : ∀ (t : List (String × String)) (s : String),
    s ∉ t.map Prod.fst → lookupTable t s = none := by
  intro t
  induction t with
  | nil => intro s _; rfl
  | cons kv rest ih =>
    intro s hs
    obtain ⟨k, w⟩ := kv
    simp only [List.map_cons, List.mem_cons] at hs
    push_neg at hs
    simp only [lookupTable, hs.1, if_false]
    exact ih s hs.2

theorem getFileExtension_cases (l : Option String) :
    getFileExtension l = ".txt" ∨ getFileExtension l ∈ extensionTable.map Prod.snd := by
  cases l with
  | none => exact Or.inl rfl
  | some s =>
    unfold getFileExtension
    by_cases hs : s = ""
    · simp [hs]
    · simp only [hs, if_false]
      cases hx : lookupTable extensionTable (jsToLower s) with
      | none => simp
      | some v =>
        simp only [Option.getD_some]
        exact Or.inr (lookupTable_mem_values extensionTable (jsToLower s) v hx)

theorem extension_values_ok : ∀ v ∈ extensionTable.map Prod.snd,
    v.data.head? = some '.' ∧ v ≠ "" ∧ '/' ∉ v.data ∧ '\\' ∉ v.data := by
  decide

theorem getFileExtension_ok (l : Option String) :
    (getFileExtension l).data.head? = some '.' ∧ getFileExtension l ≠ "" ∧
    '/' ∉ (getFileExtension l).data ∧ '\\' ∉ (getFileExtension l).data := by
  rcases getFileExtension_cases l with h | h
  · rw [h]; refine ⟨rfl, by decide, by decide, by decide⟩
  · exact extension_values_ok _ h

theorem char_toLower_idem (c : Char) : c.toLower.toLower = c.toLower := by
  by_cases h : 65 ≤ c.toNat ∧ c.toNat ≤ 90
  · have hc : Char.ofNat c.toNat = c := Char.ofNat_toNat c
    obtain ⟨h1, h2⟩ := h
    interval_cases hn : c.toNat <;> (rw [← hc]; decide)
  · have he : c.toLower = c := by
      unfold Char.toLower
      rw [if_neg]
      intro hcon
      exact h ⟨hcon.1, hcon.2⟩
    rw [he, he]

theorem jsToLower_idem (s : String) : jsToLower (jsToLower s) = jsToLower s := by
  apply String.ext
  show (s.data.map Char.toLower).map Char.toLower = s.data.map Char.toLower
  rw [List.map_map]
  apply List.map_congr_left
  intro c _
  exact char_toLower_idem c

theorem jsToLower_eq_empty (s : String) : jsToLower s = "" ↔ s = "" := by
  constructor
  · intro h
    have hd : s.data.map Char.toLower = [] := congrArg String.data h
    have hnil : s.data = [] := List.map_eq_nil_iff.mp hd
    exact String.ext hnil
  · intro h; rw [h]; rfl

theorem getFileExtension_lower (s : String) :
    getFileExtension (some s) = getFileExtension (some (jsToLower s)) := by
  unfold getFileExtension
  by_cases hs : s = ""
  · simp only [hs, if_true]
    rfl
  · have hs2 : jsToLower s ≠ "" := fun h => hs ((jsToLower_eq_empty s).mp h)
    simp only [hs, hs2, if_false]
    rw [jsToLower_idem]

/-! ### Engine-level lemmas -/

theorem assignPath_not_mem (t : String) (l : Option String) (i : Nat)
    (u : List String) (d : Bool) : assignPath t l i u d ∉ u := by
  unfold assignPath resolveCollision
  by_cases h : constructFilePath (sanitizePathComponents t).1 (sanitizePathComponents t).2
      (getFileExtension l) i d ∈ u
  · rw [if_pos h]
    exact makeUnique_not_mem _ u
  · rw [if_neg h]
    exact h

theorem runEngine_fresh : ∀ (arts : List (String × Option String × Nat)) (d : Bool)
    (u : List String), ((runEngine arts d u).1).Nodup ∧ ∀ p ∈ (runEngine arts d u).1, p ∉ u := by
  intro arts
  induction arts with
  | nil => intro d u; simp [runEngine]
  | cons art rest ih =>
    intro d u
    obtain ⟨t, l, i⟩ := art
    obtain ⟨ihnd, ihfresh⟩ := ih d (assignPath t l i u d :: u)
    constructor
    · simp only [runEngine, getUniqueFileName, List.nodup_cons]
      refine ⟨?_, ihnd⟩
      intro hmem
      have hni := ihfresh _ hmem
      simp at hni
    · intro p hp
      simp only [runEngine, getUniqueFileName, List.mem_cons] at hp
      rcases hp with h | h
      · rw [h]; exact assignPath_not_mem t l i u d
      · have hni := ihfresh p h
        simp only [List.mem_cons] at hni
        intro hpu
        exact hni (Or.inr hpu)

theorem assignPath_congr (t : String) (l : Option String) (i : Nat) (d : Bool)
    (u1 u2 : List String) (hequiv : ∀ s, s ∈ u1 ↔ s ∈ u2) :
    assignPath t l i u1 d = assignPath t l i u2 d := by
  unfold assignPath resolveCollision
  by_cases h : constructFilePath (sanitizePathComponents t).1 (sanitizePathComponents t).2
      (getFileExtension l) i d ∈ u1
  · have h2 := (hequiv _).mp h
    rw [if_pos h, if_pos h2]
    exact makeUnique_congr _ u1 u2 hequiv
  · have h2 : constructFilePath (sanitizePathComponents t).1 (sanitizePathComponents t).2
        (getFileExtension l) i d ∉ u2 := fun hx => h ((hequiv _).mpr hx)
    rw [if_neg h, if_neg h2]

theorem runEngine_congr : ∀ (arts : List (String × Option String × Nat)) (d : Bool)
    (u1 u2 : List String), (∀ s, s ∈ u1 ↔ s ∈ u2) →
    (runEngine arts d u1).1 = (runEngine arts d u2).1 := by
  intro arts
  induction arts with
  | nil => intro d u1 u2 _; rfl
  | cons art rest ih =>
    intro d u1 u2 hequiv
    obtain ⟨t, l, i⟩ := art
    have hp := assignPath_congr t l i d u1 u2 hequiv
    simp only [runEngine, getUniqueFileName]
    rw [hp]
    congr 1
    apply ih
    intro s
    simp only [List.mem_cons]
    rw [hequiv s]

/-! ### Path-character safety lemmas -/

theorem allowed_ne_sep (c : Char) (h : isAllowedChar c = true) : c ≠ '/' ∧ c ≠ '\\' := by
  constructor
  · intro he; rw [he] at h; exact absurd h (by decide)
  · intro he; rw [he] at h; exact absurd h (by decide)

theorem isDigit_allowed (c : Char) (h : c.isDigit = true) : isAllowedChar c = true := by
  unfold isAllowedChar
  have ha : c.isAlphanum = true := by
    unfold Char.isAlphanum
    rw [h]
    simp
  rw [ha]
  simp

theorem extension_values_allowed : ∀ v ∈ extensionTable.map Prod.snd,
    ∀ c ∈ v.data, isAllowedChar c = true := by
  decide

theorem getFileExtension_chars (l : Option String) (c : Char)
    (hc : c ∈ (getFileExtension l).data) : isAllowedChar c = true := by
  rcases getFileExtension_cases l with h | h
  · rw [h] at hc
    simp only [show (".txt" : String).data = ['.', 't', 'x', 't'] from rfl,
      List.mem_cons, List.not_mem_nil, or_false] at hc
    rcases hc with rfl | rfl | rfl | rfl <;> decide
  · exact extension_values_allowed _ h c hc

theorem sanitizePathComponents_fst_chars (t : String) (c : Char)
    (hc : c ∈ ((sanitizePathComponents t).1).data) : isAllowedChar c = true ∨ c = '/' := by
  unfold sanitizePathComponents at hc
  simp only at hc
  rcases joinSep_chars _ '/' c hc with h | ⟨x, hx, hcx⟩
  · exact Or.inr h
  · rcases List.mem_map.mp hx with ⟨part, _, hpart⟩
    rw [← hpart] at hcx
    exact Or.inl (sanitizeAux_allowed part false c hcx)

theorem sanitizePathComponents_snd_chars (t : String) (c : Char)
    (hc : c ∈ ((sanitizePathComponents t).2).data) : isAllowedChar c = true := by
  unfold sanitizePathComponents at hc
  simp only at hc
  exact sanitizeAux_allowed _ false c hc

theorem constructFilePath_chars (path fn ext : String) (i : Nat) (d : Bool) (c : Char)
    (hc : c ∈ (constructFilePath path fn ext i d).data) :
    c ∈ path.data ∨ c ∈ fn.data ∨ c ∈ ext.data ∨ c.isDigit = true ∨ c = '_' ∨ c = '/' := by
  unfold constructFilePath at hc
  cases d with
  | true =>
    simp only [if_true] at hc
    by_cases hp : path = ""
    · rw [if_pos hp] at hc
      simp only [String.data_append, List.mem_append] at hc
      rcases hc with h | h
      · exact Or.inr (Or.inl h)
      · exact Or.inr (Or.inr (Or.inl h))
    · rw [if_neg hp] at hc
      simp only [String.data_append, List.mem_append] at hc
      rcases hc with ((h | h) | h) | h
      · exact Or.inl h
      · simp at h
        exact Or.inr (Or.inr (Or.inr (Or.inr (Or.inr h))))
      · exact Or.inr (Or.inl h)
      · exact Or.inr (Or.inr (Or.inl h))
  | false =>
    simp only [Bool.false_eq_true, if_false] at hc
    simp only [String.data_append, List.mem_append] at hc
    rcases hc with ((h | h) | h) | h
    · exact Or.inr (Or.inr (Or.inr (Or.inl (repr_chars_digit _ c h))))
    · simp at h
      exact Or.inr (Or.inr (Or.inr (Or.inr (Or.inl h))))
    · exact Or.inr (Or.inl h)
    · exact Or.inr (Or.inr (Or.inl h))

theorem assignPath_chars_allowed (t : String) (l : Option String) (i : Nat)
    (u : List String) (d : Bool) (c : Char) (hc : c ∈ (assignPath t l i u d).data) :
    isAllowedChar c = true ∨ c = '/' := by
  have hbase : ∀ c2 : Char,
      c2 ∈ (constructFilePath (sanitizePathComponents t).1 (sanitizePathComponents t).2
        (getFileExtension l) i d).data → isAllowedChar c2 = true ∨ c2 = '/' := by
    intro c2 hc2
    rcases constructFilePath_chars _ _ _ i d c2 hc2 with h | h | h | h | h | h
    · exact sanitizePathComponents_fst_chars t c2 h
    · exact Or.inl (sanitizePathComponents_snd_chars t c2 h)
    · exact Or.inl (getFileExtension_chars l c2 h)
    · exact Or.inl (isDigit_allowed c2 h)
    · rw [h]; exact Or.inl (by decide)
    · exact Or.inr h
  unfold assignPath resolveCollision at hc
  by_cases h : constructFilePath (sanitizePathComponents t).1 (sanitizePathComponents t).2
      (getFileExtension l) i d ∈ u
  · rw [if_pos h] at hc
    rcases makeUnique_chars _ u c hc with h2 | h2 | h2
    · exact hbase c h2
    · exact Or.inl (isDigit_allowed c h2)
    · rw [h2]; exact Or.inl (by decide)
  · rw [if_neg h] at hc
    exact hbase c hc

theorem assignPath_no_backslash (t : String) (l : Option String) (i : Nat)
    (u : List String) (d : Bool) : '\\' ∉ (assignPath t l i u d).data := by
  intro hc
  rcases assignPath_chars_allowed t l i u d '\\' hc with h | h
  · exact absurd h (by decide)
  · exact absurd h (by decide)

theorem constructFilePath_flat_chars (path fn ext : String) (i : Nat) (c : Char)
    (hc : c ∈ (constructFilePath path fn ext i false).data) :
    c.isDigit = true ∨ c = '_' ∨ c ∈ fn.data ∨ c ∈ ext.data := by
  unfold constructFilePath at hc
  simp only [Bool.false_eq_true, if_false, String.data_append, List.mem_append] at hc
  rcases hc with ((h | h) | h) | h
  · exact Or.inl (repr_chars_digit _ c h)
  · simp at h
    exact Or.inr (Or.inl h)
  · exact Or.inr (Or.inr (Or.inl h))
  · exact Or.inr (Or.inr (Or.inr h))

theorem constructFilePath_flat_underscore (path fn ext : String) (i : Nat) :
    '_' ∈ (constructFilePath path fn ext i false).data := by
  unfold constructFilePath
  simp only [Bool.false_eq_true, if_false, String.data_append, List.mem_append]
  left; left; right
  simp

theorem makeUnique_underscore (f : String) (u : List String) :
    '_' ∈ (makeUnique f u).data := by
  unfold makeUnique
  refine searchFree_all _ u (fun s => '_' ∈ s.data) ?_ _ 1
  intro k
  show '_' ∈ (splitPathAt f.data).1 ++ (splitExtAt (splitPathAt f.data).2).1
    ++ '_' :: (Nat.repr k).data ++ (splitExtAt (splitPathAt f.data).2).2
  simp

theorem assignPath_flat_no_slash (t : String) (l : Option String) (i : Nat)
    (u : List String) : '/' ∉ (assignPath t l i u false).data ∧
      '_' ∈ (assignPath t l i u false).data := by
  have hbase : ∀ c : Char,
      c ∈ (constructFilePath (sanitizePathComponents t).1 (sanitizePathComponents t).2
        (getFileExtension l) i false).data → c ≠ '/' := by
    intro c hc
    rcases constructFilePath_flat_chars _ _ _ i c hc with h | h | h | h
    · exact (allowed_ne_sep c (isDigit_allowed c h)).1
    · rw [h]; decide
    · exact (allowed_ne_sep c (sanitizePathComponents_snd_chars t c h)).1
    · exact (allowed_ne_sep c (getFileExtension_chars l c h)).1
  unfold assignPath resolveCollision
  by_cases h : constructFilePath (sanitizePathComponents t).1 (sanitizePathComponents t).2
      (getFileExtension l) i false ∈ u
  · rw [if_pos h]
    constructor
    · intro hc
      rcases makeUnique_chars _ u '/' hc with h2 | h2 | h2
      · exact hbase '/' h2 rfl
      · exact absurd h2 (by decide)
      · exact absurd h2 (by decide)
    · exact makeUnique_underscore _ u
  · rw [if_neg h]
    constructor
    · intro hc
      exact hbase '/' hc rfl
    · exact constructFilePath_flat_underscore _ _ _ i

/-! ### Frame lemma for collision resolution -/

theorem makeUnique_frame (f : String) (u : List String) (b a : List Char)
    (hsplit : splitLastChar '/' f.data = some (b, a)) :
    ∃ leaf2, (makeUnique f u).data = b ++ '/' :: leaf2 ∧ '/' ∉ leaf2 := by
  have hpa : splitPathAt f.data = (b ++ ['/'], a) := by
    unfold splitPathAt; rw [hsplit]
  obtain ⟨he, hna⟩ := splitLastChar_spec f.data '/' b a hsplit
  unfold makeUnique
  refine searchFree_all _ u (fun s => ∃ leaf2, s.data = b ++ '/' :: leaf2 ∧ '/' ∉ leaf2) ?_ _ 1
  intro k
  refine ⟨(splitExtAt a).1 ++ '_' :: (Nat.repr k).data ++ (splitExtAt a).2, ?_, ?_⟩
  · show (splitPathAt f.data).1 ++ (splitExtAt (splitPathAt f.data).2).1
      ++ '_' :: (Nat.repr k).data ++ (splitExtAt (splitPathAt f.data).2).2 = _
    rw [hpa]
    simp [List.append_assoc]
  · intro hc
    simp only [List.append_assoc, List.mem_append, List.cons_append, List.mem_cons] at hc
    rcases hc with h | h | h | h
    · exact hna (splitExtAt_chars_fst a '/' h)
    · exact absurd h (by decide)
    · exact absurd (repr_chars_digit k '/' h) (by decide)
    · exact hna (splitExtAt_chars_snd a '/' h)

/-! ### Claim theorems -/

/-- C1: for every sequence of artifacts assigned paths through
`getUniqueFileName` within one run sharing a single allocation set, all
returned paths are pairwise distinct, and each returned path is a member of
the allocation set immediately after the call that returned it (indeed it was
not in the set before the call). -/
theorem getUniqueFileName_run_unique :
    (∀ (t : String) (l : Option String) (i : Nat) (u : List String) (d : Bool),
      (getUniqueFileName t l i u d).1 ∈ (getUniqueFileName t l i u d).2 ∧
      (getUniqueFileName t l i u d).1 ∉ u) ∧
    (∀ (arts : List (String × Option String × Nat)) (d : Bool) (u : List String),
      ((runEngine arts d u).1).Nodup) := by
  constructor
  · intro t l i u d
    constructor
    · simp [getUniqueFileName]
    · exact assignPath_not_mem t l i u d
  · intro arts d u
    exact (runEngine_fresh arts d u).1

/-- C2: evaluation of the source's `makeUniqueWithArrays` at the spec's
collision scenario.  Because the source's `pipe` applies its functions
right-to-left and its `prependPath` is built from the `append` combinator,
resolving `"2_test-file.js"` against a set already containing it yields
`"2_test-file/.js_*"` — the marker lands after the extension and a stray
separator appears — and not the `"2_test-file_*.js"` that the claim (and the
repository's own tests for the collision behaviour) state. -/
theorem makeUniqueWithArrays_collision_eval :
    makeUniqueWithArrays "2_test-file.js" ["2_test-file.js"] = "2_test-file/.js_*" ∧
    makeUniqueWithArrays "2_test-file.js" ["2_test-file.js"] ≠ "2_test-file_*.js" :=
  ⟨by decide, by decide⟩

/-- C3: in Flat policy, `compose` with ordinal index `i` produces the numeric
prefix `i+1` followed by an underscore before the rest of the composed name,
the prefix being omitted entirely when the index is undefined; in particular
the spec's concrete Flat scenarios hold, and index `0` yields prefix `1_`. -/
theorem compose_flat_index_prefix :
    (∀ (t e : String) (s : Option String) (i : Nat),
      compose t e (some i) s .Flat = Nat.repr (i + 1) ++ "_" ++ compose t e none s .Flat) ∧
    compose "test" ".js" (some 5) none .Flat = "6_test.js" ∧
    compose "test" ".js" none none .Flat = "test.js" ∧
    compose "test" ".js" (some 3) (some "_modified") .Flat = "4_test_modified.js" ∧
    compose "test" ".js" (some 0) none .Flat = "1_test.js" := by
  refine ⟨?_, by decide, by decide, by decide, by decide⟩
  intro t e s i
  apply String.ext
  simp [compose, List.append_assoc]

/-- C4 counterexample: the claim fails on the code.  In directory mode the
title `"../x"` survives sanitization (dots are in the allowed class) and the
engine returns `"../x.js"`, whose first segment is `".."`; likewise the title
`"//x"` produces `"//x.js"`, which begins with `/`. -/
theorem getUniqueFileName_dotdot_counterexample :
    (getUniqueFileName "../x" (some "javascript") 0 [] true).1 = "../x.js" ∧
    ['.', '.'] ∈ pathSegments (getUniqueFileName "../x" (some "javascript") 0 [] true).1 ∧
    (getUniqueFileName "//x" (some "javascript") 0 [] true).1 = "//x.js" ∧
    ((getUniqueFileName "//x" (some "javascript") 0 [] true).1).data.head? = some '/' :=
  ⟨by decide, by decide, by decide, by decide⟩

/-- C4 amended: every path returned by `getUniqueFileName` uses forward-slash
separators only (a backslash never occurs); in flat mode the returned path
moreover contains no separator at all, never begins with `/`, and never
contains a `..` segment.  (In directory mode, all-dots title segments such as
`".."` survive sanitization and can produce `..` segments, and repeated
leading separators can produce a leading `/`.) -/
theorem getUniqueFileName_separator_safety :
    (∀ (t : String) (l : Option String) (i : Nat) (u : List String) (d : Bool),
      '\\' ∉ ((getUniqueFileName t l i u d).1).data) ∧
    (∀ (t : String) (l : Option String) (i : Nat) (u : List String),
      '/' ∉ ((getUniqueFileName t l i u false).1).data ∧
      ((getUniqueFileName t l i u false).1).data.head? ≠ some '/' ∧
      ['.', '.'] ∉ pathSegments (getUniqueFileName t l i u false).1) := by
  constructor
  · intro t l i u d
    exact assignPath_no_backslash t l i u d
  · intro t l i u
    obtain ⟨hns, hu⟩ := assignPath_flat_no_slash t l i u
    refine ⟨hns, ?_, ?_⟩
    · show ((assignPath t l i u false).data).head? ≠ some '/'
      cases hd : (assignPath t l i u false).data with
      | nil => simp
      | cons c cs =>
        simp only [List.head?]
        intro hcon
        injection hcon with hc2
        rw [hc2] at hd
        exact hns (by rw [hd]; simp)
    · show ['.', '.'] ∉ pathSegments (assignPath t l i u false)
      unfold pathSegments
      rw [jsSplit_no_delim (assignPath t l i u false).data _ ?_]
      · intro hmem
        have hdd : (assignPath t l i u false).data = ['.', '.'] := by
          have := List.mem_singleton.mp hmem
          exact this.symm
        rw [hdd] at hu
        simp at hu
      · intro c hc
        rw [decide_eq_false_iff_not]
        intro he
        rw [he] at hc
        exact hns hc

/-- C5: path assignment is deterministic — any two calls with identical
title, language, index and policy against allocation sets of identical
contents return the identical path, and full runs over the same artifact
sequence from membership-equal allocation sets (in particular two fresh empty
sets) produce identical path sequences. -/
theorem getUniqueFileName_deterministic :
    ∀ (d : Bool) (u1 u2 : List String), (∀ s, s ∈ u1 ↔ s ∈ u2) →
      (∀ (t : String) (l : Option String) (i : Nat),
        (getUniqueFileName t l i u1 d).1 = (getUniqueFileName t l i u2 d).1) ∧
      (∀ arts : List (String × Option String × Nat),
        (runEngine arts d u1).1 = (runEngine arts d u2).1) := by
  intro d u1 u2 h
  exact ⟨fun t l i => assignPath_congr t l i d u1 u2 h,
    fun arts => runEngine_congr arts d u1 u2 h⟩

/-- C5 witness: the determinism theorem applied to two concrete allocation
sets with the same membership but different list representations. -/
theorem getUniqueFileName_deterministic_witness :
    (∀ s : String, s ∈ ["a.txt", "b.txt"] ↔ s ∈ ["b.txt", "a.txt", "b.txt"]) ∧
    ((∀ (t : String) (l : Option String) (i : Nat),
      (getUniqueFileName t l i ["a.txt", "b.txt"] false).1 =
        (getUniqueFileName t l i ["b.txt", "a.txt", "b.txt"] false).1) ∧
     (∀ arts : List (String × Option String × Nat),
      (runEngine arts false ["a.txt", "b.txt"]).1 =
        (runEngine arts false ["b.txt", "a.txt", "b.txt"]).1)) := by
  have h : ∀ s : String, s ∈ ["a.txt", "b.txt"] ↔ s ∈ ["b.txt", "a.txt", "b.txt"] := by
    intro s
    simp only [List.mem_cons, List.not_mem_nil, or_false]
    tauto
  exact ⟨h, getUniqueFileName_deterministic false _ _ h⟩

/-- C6: extension resolution is case-insensitive over the fixed table
(`PYTHON`, `JAVASCRIPT`, `CsS` resolve like their lowercase forms), every
falsy input (null, undefined, empty) and every unrecognized input — any
string whose lowercasing is not a key of the fixed table — resolves to
`.txt`, and the resolver is total, always returning a non-empty string
beginning with a dot. -/
theorem getFileExtension_total_table :
    getFileExtension (some "PYTHON") = ".py" ∧
    getFileExtension (some "JAVASCRIPT") = ".js" ∧
    getFileExtension (some "CsS") = ".css" ∧
    getFileExtension none = ".txt" ∧
    getFileExtension (some "") = ".txt" ∧
    getFileExtension (some "unknown") = ".txt" ∧
    (∀ s : String, jsToLower s ∉ extensionTable.map Prod.fst →
      getFileExtension (some s) = ".txt") ∧
    (∀ l : Option String, getFileExtension l ≠ "" ∧
      (getFileExtension l).data.head? = some '.') ∧
    (∀ s : String, getFileExtension (some s) = getFileExtension (some (jsToLower s))) := by
  refine ⟨by decide, by decide, by decide, rfl, by decide, by decide, ?_, ?_,
    getFileExtension_lower⟩
  · intro s hs
    show (if s = "" then ".txt"
      else (lookupTable extensionTable (jsToLower s)).getD ".txt") = ".txt"
    by_cases hse : s = ""
    · rw [if_pos hse]
    · rw [if_neg hse, lookupTable_eq_none extensionTable (jsToLower s) hs]
      rfl
  · intro l
    obtain ⟨hh, hne, _, _⟩ := getFileExtension_ok l
    exact ⟨hne, hh⟩

/-- C6 witness: the resolver theorem applied at the concrete unrecognized
input `"fortran"`, whose lowercasing is not a key of the fixed table. -/
theorem getFileExtension_total_table_witness :
    (jsToLower "fortran" ∉ extensionTable.map Prod.fst) ∧
    getFileExtension (some "fortran") = ".txt" :=
  ⟨by decide, getFileExtension_total_table.2.2.2.2.2.2.1 "fortran" (by decide)⟩

/-- C7: evaluation of the source engine at the empty title.  The source's
`sanitizePathComponents` substitutes `"untitled"` for an empty popped
filename (`parts.pop() || "untitled"`), so assigning an empty title with
language python and index 0 in flat mode returns `"1_untitled.py"` — not the
`"1_.py"` that the claim (and the repository's own tests) state. -/
theorem getUniqueFileName_empty_title_eval :
    (getUniqueFileName "" (some "python") 0 [] false).1 = "1_untitled.py" ∧
    (getUniqueFileName "" (some "python") 0 [] false).1 ≠ "1_.py" :=
  ⟨by decide, by decide⟩

/-- C8: when a colliding candidate contains directory structure, collision
resolution (`makeUnique`) modifies only the leaf-plus-extension portion:
the directory segments of the returned path are exactly the directory
segments of the candidate, unchanged and in the same order. -/
theorem makeUnique_preserves_directories :
    ∀ (f : String) (u : List String), '/' ∈ f.data → f ∈ u →
      (pathSegments (makeUnique f u)).dropLast = (pathSegments f).dropLast := by
  intro f u hsl _
  obtain ⟨b, a, hsplit⟩ := splitLastChar_of_mem f.data '/' hsl
  obtain ⟨he, hna⟩ := splitLastChar_spec f.data '/' b a hsplit
  obtain ⟨leaf2, hres, hnl⟩ := makeUnique_frame f u b a hsplit
  unfold pathSegments
  rw [hres, he]
  rw [jsSplit_append _ '/' (by simp) b leaf2]
  rw [jsSplit_append _ '/' (by simp) b a]
  rw [jsSplit_no_delim leaf2 _ ?hl, jsSplit_no_delim a _ ?ha]
  case hl =>
    intro c hc
    rw [decide_eq_false_iff_not]
    intro hce
    rw [hce] at hc
    exact hnl hc
  case ha =>
    intro c hc
    rw [decide_eq_false_iff_not]
    intro hce
    rw [hce] at hc
    exact hna hc
  simp

/-- C8 witness: the frame theorem applied to a concrete colliding candidate
carrying directory structure. -/
theorem makeUnique_preserves_directories_witness :
    ('/' ∈ ("src/utils/helper.js" : String).data) ∧
    (("src/utils/helper.js" : String) ∈ ["src/utils/helper.js"]) ∧
    (pathSegments (makeUnique "src/utils/helper.js" ["src/utils/helper.js"])).dropLast =
      (pathSegments "src/utils/helper.js").dropLast :=
  ⟨by decide, by decide,
    makeUnique_preserves_directories "src/utils/helper.js" ["src/utils/helper.js"]
      (by decide) (by decide)⟩

/-- C9: the sanitizer is idempotent — sanitizing an already sanitized string
changes nothing, because every character the sanitizer emits (kept characters
and the substituted underscore) is in the preserved class. -/
theorem sanitizeComponent_idempotent :
    ∀ x : String, sanitizeComponent (sanitizeComponent x) = sanitizeComponent x := by
  intro x
  apply String.ext
  show sanitizeAux false (sanitizeAux false x.data) = sanitizeAux false x.data
  exact sanitizeAux_fixed _ false (fun c hc => sanitizeAux_allowed x.data false c hc)

end ArtifactDownloader
